import Mathlib

/-!
Verification model of the infrabase connectivity-resolution core
(`src/main.rs`): the address allocator (`increment_ipv4_address`,
`increment_ipv6_address`, `get_unused_wireguard_ipv4_address`,
`get_unused_wireguard_ipv6_address`), the path resolver
(`get_network_to_network`), the peer-set builder (`get_wireguard_peers`,
`sort_wireguard_peers`, `print_wg_quick`) and the SSH-config target
selection (`print_ssh_config`).

Machine integers are modelled as `Nat`/`Int`.  An IPv4 address is its
list of 4 octets (each `< 256`), an IPv6 address its list of 8 segments
(each `< 65536`); both Rust functions run the same per-segment carry
loop, so the embedding shares one generic definition instantiated at
base 256 / width 4 and base 65536 / width 8, mirroring each source
function with its own literal bound.
-/

namespace Infrabase

/-- An IPv4 address as its list of octets, most significant first
(`Ipv4Addr::octets`); well-formed when it has 4 elements, each below 256. -/
abbrev Ipv4Addr := List Nat

/-- An IPv6 address as its list of 16-bit segments, most significant first
(`Ipv6Addr::segments`); well-formed when it has 8 elements, each below 65536. -/
abbrev Ipv6Addr := List Nat

/-- Well-formedness of an address over base `B` with `w` segments:
exactly `w` segments, each a machine integer below `B`. -/
def AddrWf (B w : Nat) (xs : List Nat) : Prop :=
  xs.length = w ∧ ∀ x ∈ xs, x < B

instance (B w : Nat) (xs : List Nat) : Decidable (AddrWf B w xs) := by
  unfold AddrWf; infer_instance

/-- The carry loop of `increment_ipv4_address` / `increment_ipv6_address`
(`for i in (0..w).rev() { if seg[i] < B-1 { seg[i] += 1; break } else { seg[i] = 0 } }`),
expressed on the reversed (least-significant-first) segment list. -/
def incLE (B : Nat) : List Nat → List Nat
  | [] => []
  | x :: xs => if x < B - 1 then (x + 1) :: xs else 0 :: incLE B xs

/-- Generic body shared by `increment_ipv4_address` (B = 256, w = 4) and
`increment_ipv6_address` (B = 65536, w = 8): return `none` on the all-ones
address, otherwise run the carry loop from the least significant segment. -/
def incrementAddr (B w : Nat) (xs : List Nat) : Option (List Nat) :=
  if xs = List.replicate w (B - 1) then none
  else some (incLE B xs.reverse).reverse

/-- `increment_ipv4_address` from `src/main.rs`: `None` on `255.255.255.255`,
otherwise the per-octet carry increment. -/
def increment_ipv4_address (ip : Ipv4Addr) : Option Ipv4Addr :=
  incrementAddr 256 4 ip

/-- `increment_ipv6_address` from `src/main.rs`: `None` on the all-`ffff`
address, otherwise the per-segment carry increment. -/
def increment_ipv6_address (ip : Ipv6Addr) : Option Ipv6Addr :=
  incrementAddr 65536 8 ip

/-- Value of a least-significant-first segment list in base `B`. -/
def toNatLE (B : Nat) : List Nat → Nat
  | [] => 0
  | x :: xs => x + B * toNatLE B xs

/-- Numeric value of an address (most-significant-first segment list)
in base `B`: the integer the address denotes. -/
def addrValue (B : Nat) (xs : List Nat) : Nat :=
  toNatLE B xs.reverse

/-- The scan loop shared by `get_unused_wireguard_ipv4_address` and
`get_unused_wireguard_ipv6_address`: starting at `ip`, return the first
address not in `existing`; stop (returning `none`) after checking `end_ip`
or when the increment overflows.  The Rust `iter::successors` iterator is
finite (at most `B^w` addresses); `fuel` is an upper bound on its length,
chosen `≥ B^w` at each use site so it is never exhausted. -/
def scan_unused (B w : Nat) (existing : List (List Nat)) (end_ip : List Nat) :
    Nat → List Nat → Option (List Nat)
  | 0, _ => none
  | fuel + 1, ip =>
    if ip ∈ existing then
      if ip = end_ip then none
      else
        match incrementAddr B w ip with
        | some next => scan_unused B w existing end_ip fuel next
        | none => none
    else some ip

/-- `get_unused_wireguard_ipv4_address` from `src/main.rs`, with the
existing-address set (read from the database) passed explicitly. -/
def get_unused_wireguard_ipv4_address (existing : List Ipv4Addr)
    (start_ip end_ip : Ipv4Addr) : Option Ipv4Addr :=
  scan_unused 256 4 existing end_ip (2 ^ 32) start_ip

/-- `get_unused_wireguard_ipv6_address` from `src/main.rs`, with the
existing-address set (read from the database) passed explicitly. -/
def get_unused_wireguard_ipv6_address (existing : List Ipv6Addr)
    (start_ip end_ip : Ipv6Addr) : Option Ipv6Addr :=
  scan_unused 65536 8 existing end_ip (2 ^ 128) start_ip

/-- An IP address (`std::net::IpAddr`): either IPv4 or IPv6. -/
inductive IpAddr where
  | v4 (a : Ipv4Addr)
  | v6 (a : Ipv6Addr)
deriving DecidableEq

/-- `MachineAddress` from `src/main.rs`: one row of `machine_addresses`. -/
structure MachineAddress where
  hostname : String
  network : String
  address : IpAddr
  ssh_port : Option Int
  wireguard_port : Option Int
deriving DecidableEq

/-- `Machine` from `src/main.rs`: one row of `machines_view` together with its
address list; the timestamp is modelled as an integer. -/
structure Machine where
  hostname : String
  wireguard_ipv4_address : Option Ipv4Addr
  wireguard_ipv6_address : Option Ipv6Addr
  wireguard_port : Option Int
  wireguard_privkey : Option String
  wireguard_pubkey : Option String
  ssh_port : Option Int
  ssh_user : Option String
  added_time : Int
  owner : String
  provider_id : Option Int
  provider_reference : Option String
  networks : List String
  addresses : List MachineAddress
deriving DecidableEq

/-- The `(network, other_network) → priority` map built by
`get_network_links_priority_map`, modelled extensionally: `none` means the
pair is absent from the map (`contains_key` is `isSome`). -/
abbrev NetworkLinksPriorityMap := String × String → Option Int

/-- The `(source_machine, target_machine) → interval` map built by
`get_wireguard_keepalive_map`, modelled extensionally. -/
abbrev WireguardKeepaliveIntervalMap := String × String → Option Int

/-- Insert `x` into a list before the first element whose key is not smaller,
one step of the insertion sort below. -/
def insertByKey {α : Type} (key : α → Int) (x : α) : List α → List α
  | [] => [x]
  | y :: ys => if key x ≤ key y then x :: y :: ys else y :: insertByKey key x ys

/-- Sort by an integer key.  `Vec::sort_unstable_by_key` guarantees a sorted
permutation of its input (order among equal keys unspecified); Rust implements
it by plain insertion sort for slices of at most 20 elements, which this
definition mirrors.  Only contract-level properties (membership, sortedness)
are proved about results of this function. -/
def sortByKey {α : Type} (key : α → Int) : List α → List α
  | [] => []
  | x :: xs => insertByKey key x (sortByKey key xs)

/-- `get_network_to_network` from `src/main.rs`: the cartesian product of the
source networks with the destination-address networks (source outer,
destination inner, as `iproduct!` enumerates), keeping pairs present in the
priority map, sorted by priority (the `unwrap` in the sort key is total on the
filtered list, so it is modelled by `getD`). -/
def get_network_to_network (network_links_priority_map : NetworkLinksPriorityMap)
    (source_networks : List String) (addresses : List MachineAddress) :
    List (String × String) :=
  let dest_networks := addresses.map (fun a => a.network)
  let network_to_network :=
    (source_networks.flatMap (fun s => dest_networks.map (fun d => (s, d)))).filter
      (fun p => (network_links_priority_map p).isSome)
  sortByKey (fun p => (network_links_priority_map p).getD 0) network_to_network

/-- The per-candidate body of the loop in `print_ssh_config` from
`src/main.rs`: the `(address, ssh_port)` pair chosen for one candidate
machine, given the requesting machine's networks.  The outer `none` models the
`unwrap` panic on a missing destination address; the printing itself is not
modelled. -/
def print_ssh_config_entry (network_links_priority_map : NetworkLinksPriorityMap)
    (source_networks : List String) (machine : Machine) :
    Option (Option IpAddr × Option Int) :=
  match (get_network_to_network network_links_priority_map source_networks
      machine.addresses).head? with
  | none => some (machine.wireguard_ipv4_address.map IpAddr.v4, machine.ssh_port)
  | some (_, dest_network) =>
    match machine.addresses.find? (fun a => a.network == dest_network) with
    | none => none
    | some desired_address => some (some desired_address.address, desired_address.ssh_port)

/-- `WireguardPeer` from `src/main.rs`; the endpoint port is a `u16`. -/
structure WireguardPeer where
  hostname : String
  wireguard_pubkey : String
  wireguard_ipv4_address : Ipv4Addr
  wireguard_ipv6_address : Ipv6Addr
  endpoint : Option (IpAddr × Nat)
  keepalive : Option Int
deriving DecidableEq

/-- The error results `get_wireguard_peers` can surface: the requested
machine missing from the map, or a stored port outside `0..=65535`
(`u16::try_from` failing). -/
inductive PeersError where
  | missingMachine
  | portOutOfRange (port : Int)
deriving DecidableEq

/-- The endpoint computation inside the loop of `get_wireguard_peers`
(`src/main.rs`): consult the top resolver pair, pick the candidate's first
address on that destination network, and use its WireGuard port when present
and convertible to `u16`. -/
def peer_endpoint (network_links_priority_map : NetworkLinksPriorityMap)
    (source_networks : List String) (machine : Machine) :
    Except PeersError (Option (IpAddr × Nat)) :=
  match (get_network_to_network network_links_priority_map source_networks
      machine.addresses).head? with
  | some (_, dest_network) =>
    match machine.addresses.find? (fun a => a.network == dest_network) with
    | some desired_address =>
      match desired_address.wireguard_port with
      | some port =>
        if 0 ≤ port ∧ port < 65536 then
          .ok (some (desired_address.address, port.toNat))
        else .error (.portOutOfRange port)
      | none => .ok none
    | none => .ok none
  | none => .ok none

/-- The machine loop of `get_wireguard_peers` (`src/main.rs`): skip the
requesting machine, compute the endpoint (whose port-conversion error aborts
everything), and emit a peer when the candidate has WireGuard IPv4 and IPv6
addresses and a public key. -/
def get_wireguard_peers_loop (network_links_priority_map : NetworkLinksPriorityMap)
    (keepalives_map : WireguardKeepaliveIntervalMap) (for_machine : String)
    (source_networks : List String) :
    List Machine → Except PeersError (List WireguardPeer)
  | [] => .ok []
  | machine :: rest =>
    if machine.hostname = for_machine then
      get_wireguard_peers_loop network_links_priority_map keepalives_map for_machine
        source_networks rest
    else
      match peer_endpoint network_links_priority_map source_networks machine with
      | .error e => .error e
      | .ok endpoint =>
        match get_wireguard_peers_loop network_links_priority_map keepalives_map
            for_machine source_networks rest with
        | .error e => .error e
        | .ok peers =>
          match machine.wireguard_ipv4_address, machine.wireguard_ipv6_address,
              machine.wireguard_pubkey with
          | some v4, some v6, some pk =>
            .ok ({ hostname := machine.hostname, wireguard_pubkey := pk,
                   wireguard_ipv4_address := v4, wireguard_ipv6_address := v6,
                   endpoint := endpoint,
                   keepalive := keepalives_map (for_machine, machine.hostname) } :: peers)
          | _, _, _ => .ok peers

/-- `get_wireguard_peers` from `src/main.rs`.  The machines map is modelled as
a list of machines (hostname is the map key, so lookup is `find?` by
hostname); iteration order over `HashMap::values` is arbitrary, which the list
order generalises. -/
def get_wireguard_peers (machines : List Machine)
    (network_links_priority_map : NetworkLinksPriorityMap)
    (keepalives_map : WireguardKeepaliveIntervalMap) (for_machine : String) :
    Except PeersError (List WireguardPeer) :=
  match machines.find? (fun m => m.hostname == for_machine) with
  | none => .error .missingMachine
  | some source_machine =>
    get_wireguard_peers_loop network_links_priority_map keepalives_map for_machine
      source_machine.networks machines

/-- A segment of a hostname for natural (human) comparison: a maximal run of
digits, taken by value, or a maximal run of other characters. -/
inductive HSeg where
  | str (chars : List Char)
  | num (val : Nat)
deriving DecidableEq

/-- Modelled from the spec: segmentation of a string into natural-sort
segments (the `natural_sort` crate's `HumanStr`, external to this repository):
maximal digit runs become numeric segments read as decimal values, other
characters accumulate into string segments. -/
def humanSegsLoop : List Char → List HSeg → List HSeg
  | [], acc => acc.reverse
  | c :: rest, acc =>
    if c.isDigit then
      match acc with
      | HSeg.num n :: acc2 => humanSegsLoop rest (HSeg.num (n * 10 + (c.toNat - 48)) :: acc2)
      | _ => humanSegsLoop rest (HSeg.num (c.toNat - 48) :: acc)
    else
      match acc with
      | HSeg.str s :: acc2 => humanSegsLoop rest (HSeg.str (s ++ [c]) :: acc2)
      | _ => humanSegsLoop rest (HSeg.str [c] :: acc)

/-- Natural-sort segments of a string. -/
def humanSegs (s : String) : List HSeg := humanSegsLoop s.data []

/-- Plain lexicographic comparison of character lists. -/
def lexCmpChars : List Char → List Char → Ordering
  | [], [] => .eq
  | [], _ :: _ => .lt
  | _ :: _, [] => .gt
  | x :: xs, y :: ys =>
    if x < y then .lt else if y < x then .gt else lexCmpChars xs ys

/-- Modelled from the spec: segment-wise natural comparison (the
`natural_sort` crate's `PartialOrd` on `HumanStr`, external to this
repository).  Numeric segments compare by value, string segments
lexicographically; comparing a numeric segment with a string segment has no
defined order and yields `none` — the repository's own comments note that
`natural_sort` "refuses to compare string segments with integer segments". -/
def cmpSegs : List HSeg → List HSeg → Option Ordering
  | [], [] => some .eq
  | [], _ :: _ => some .lt
  | _ :: _, [] => some .gt
  | x :: xs, y :: ys =>
    match x, y with
    | HSeg.num m, HSeg.num n =>
      if m < n then some .lt else if n < m then some .gt else cmpSegs xs ys
    | HSeg.str s, HSeg.str t =>
      match lexCmpChars s t with
      | .eq => cmpSegs xs ys
      | o => some o
    | _, _ => none

/-- Modelled from the spec: the natural (human) comparison of two hostnames,
`HumanStr::new(a).partial_cmp(&HumanStr::new(b))`. -/
def naturalCmp (a b : String) : Option Ordering :=
  cmpSegs (humanSegs a) (humanSegs b)

/-- One insertion step of `sort_wireguard_peers`: place `x` into an already
sorted list, calling the comparator `naturalCmp(..).unwrap()` on each element
passed over; `none` models the `unwrap` panic on an incomparable pair. -/
def insertPeerCmp (x : WireguardPeer) : List WireguardPeer → Option (List WireguardPeer)
  | [] => some [x]
  | y :: ys =>
    match naturalCmp x.hostname y.hostname with
    | none => none
    | some .gt => (insertPeerCmp x ys).map (fun l => y :: l)
    | some _ => some (x :: y :: ys)

/-- `sort_wireguard_peers` from `src/main.rs`: sorts by
`HumanStr::partial_cmp(..).unwrap()` — with no lexicographic fallback, unlike
`list_addresses` and `get_sorted_machines`.  `Vec::sort_unstable_by` is plain
insertion sort for slices of at most 20 elements, modelled here; `none` models
the panic raised by `unwrap` when the comparator returns no ordering. -/
def sort_wireguard_peers : List WireguardPeer → Option (List WireguardPeer)
  | [] => some []
  | x :: xs =>
    match sort_wireguard_peers xs with
    | none => none
    | some sorted => insertPeerCmp x sorted

/-- Outcome of a `wg-quick` render, in the order `print_wg_quick`
(`src/main.rs`) decides it: missing machine and missing WireGuard addresses
are error results raised before any output; `panicked` models the `unwrap`
calls on `wireguard_privkey` / `wireguard_port` in the `[Interface]` block;
`errPeers` is an error from `get_wireguard_peers` (raised only after the
interface block has been printed). -/
inductive WgQuickOutcome where
  | ok (peers : List WireguardPeer)
  | errNoSuchMachine
  | errNoWireguardIpv4
  | errNoWireguardIpv6
  | errPeers (e : PeersError)
  | panicked
deriving DecidableEq

/-- `print_wg_quick` from `src/main.rs`, reduced to its decision structure:
which validation failure, panic, or peer list a render produces. -/
def print_wg_quick (machines : List Machine)
    (network_links_priority_map : NetworkLinksPriorityMap)
    (keepalives_map : WireguardKeepaliveIntervalMap) (for_machine : String) :
    WgQuickOutcome :=
  match machines.find? (fun m => m.hostname == for_machine) with
  | none => .errNoSuchMachine
  | some my_machine =>
    if my_machine.wireguard_ipv4_address.isNone then .errNoWireguardIpv4
    else if my_machine.wireguard_ipv6_address.isNone then .errNoWireguardIpv6
    else
      match my_machine.wireguard_privkey, my_machine.wireguard_port with
      | some _, some _ =>
        match get_wireguard_peers machines network_links_priority_map keepalives_map
            for_machine with
        | .error e => .errPeers e
        | .ok peers =>
          match sort_wireguard_peers peers with
          | none => .panicked
          | some sorted => .ok sorted
      | _, _ => .panicked

/-! Concrete fixtures for the specification's scenarios: networks `public` and
`vpn`, link priority `("public","vpn") = 1`, machine `A` with an address on
`public`, machine `B` with an address on `vpn` carrying WireGuard port
51820. -/

/-- The link-priority table of the scenario: only `("public", "vpn") ↦ 1`. -/
def scenarioLinks : NetworkLinksPriorityMap :=
  fun p => if p = ("public", "vpn") then some 1 else none

/-- Machine B's address on network `vpn`, WireGuard port 51820. -/
def addrB_vpn : MachineAddress :=
  { hostname := "B", network := "vpn", address := IpAddr.v4 [10, 0, 0, 2],
    ssh_port := some 2222, wireguard_port := some 51820 }

/-- Machine A's address on network `public`. -/
def addrA_public : MachineAddress :=
  { hostname := "A", network := "public", address := IpAddr.v4 [203, 0, 113, 1],
    ssh_port := some 22, wireguard_port := some 51820 }

/-- Scenario machine A: on network `public`, full WireGuard configuration. -/
def machineA : Machine :=
  { hostname := "A", wireguard_ipv4_address := some [192, 168, 1, 1],
    wireguard_ipv6_address := some [64768, 0, 0, 0, 0, 0, 0, 1],
    wireguard_port := some 51820, wireguard_privkey := some "privA",
    wireguard_pubkey := some "pubA", ssh_port := some 22, ssh_user := some "root",
    added_time := 0, owner := "op", provider_id := none, provider_reference := none,
    networks := ["public"], addresses := [addrA_public] }

/-- Scenario machine B: on network `vpn`, full WireGuard configuration. -/
def machineB : Machine :=
  { hostname := "B", wireguard_ipv4_address := some [192, 168, 1, 2],
    wireguard_ipv6_address := some [64768, 0, 0, 0, 0, 0, 0, 2],
    wireguard_port := some 51820, wireguard_privkey := some "privB",
    wireguard_pubkey := some "pubB", ssh_port := some 22, ssh_user := some "root",
    added_time := 0, owner := "op", provider_id := none, provider_reference := none,
    networks := ["vpn"], addresses := [addrB_vpn] }

/-- The peer `get_wireguard_peers` builds for B when rendering A's config in
the scenario. -/
def peerB : WireguardPeer :=
  { hostname := "B", wireguard_pubkey := "pubB",
    wireguard_ipv4_address := [192, 168, 1, 2],
    wireguard_ipv6_address := [64768, 0, 0, 0, 0, 0, 0, 2],
    endpoint := some (IpAddr.v4 [10, 0, 0, 2], 51820), keepalive := none }

/-- A machine that exists and has WireGuard addresses but no stored WireGuard
port (and no private key): schema-valid, since `machines.wireguard_port` is a
nullable column independent of the address columns. -/
def machinePortless : Machine :=
  { hostname := "C", wireguard_ipv4_address := some [192, 168, 1, 3],
    wireguard_ipv6_address := some [64768, 0, 0, 0, 0, 0, 0, 3],
    wireguard_port := none, wireguard_privkey := some "privC",
    wireguard_pubkey := some "pubC", ssh_port := some 22, ssh_user := some "root",
    added_time := 0, owner := "op", provider_id := none, provider_reference := none,
    networks := [], addresses := [] }

/-- A peer whose hostname starts with a digit run, for comparison against
`peerAA` below: `naturalCmp "1a" "aa"` compares a numeric segment against a
string segment and is undefined. -/
def peer1A : WireguardPeer :=
  { hostname := "1a", wireguard_pubkey := "pub1a",
    wireguard_ipv4_address := [192, 168, 1, 4],
    wireguard_ipv6_address := [64768, 0, 0, 0, 0, 0, 0, 4],
    endpoint := none, keepalive := none }

/-- A peer whose hostname is purely alphabetic. -/
def peerAA : WireguardPeer :=
  { hostname := "aa", wireguard_pubkey := "pubaa",
    wireguard_ipv4_address := [192, 168, 1, 5],
    wireguard_ipv6_address := [64768, 0, 0, 0, 0, 0, 0, 5],
    endpoint := none, keepalive := none }

/-! Arithmetic facts about the carry increment. -/

theorem incLE_spec (B : Nat) (hB : 2 ≤ B) :
    ∀ xs : List Nat, (∀ x ∈ xs, x < B) → (∃ x ∈ xs, x ≠ B - 1) →
      (incLE B xs).length = xs.length ∧ (∀ y ∈ incLE B xs, y < B) ∧
        toNatLE B (incLE B xs) = toNatLE B xs + 1 := by
  intro xs
  induction xs with
  | nil => intro _ h; simp at h
  | cons x xs ih =>
    intro hbound hne
    by_cases hx : x < B - 1
    · refine ⟨by simp [incLE, hx], ?_, ?_⟩
      · intro y hy
        rw [incLE, if_pos hx] at hy
        rcases List.mem_cons.mp hy with rfl | hy
        · omega
        · exact hbound y (List.mem_cons_of_mem _ hy)
      · rw [incLE, if_pos hx]
        simp [toNatLE]; omega
    · have hxB : x < B := hbound x (List.mem_cons_self _ _)
      have hxeq : x = B - 1 := by omega
      have hxs : ∃ y ∈ xs, y ≠ B - 1 := by
        rcases hne with ⟨y, hy, hyne⟩
        rcases List.mem_cons.mp hy with rfl | hy
        · exact absurd hxeq hyne
        · exact ⟨y, hy, hyne⟩
      have ih' := ih (fun y hy => hbound y (List.mem_cons_of_mem _ hy)) hxs
      refine ⟨by simp [incLE, hx, ih'.1], ?_, ?_⟩
      · intro y hy
        rw [incLE, if_neg hx] at hy
        rcases List.mem_cons.mp hy with rfl | hy
        · omega
        · exact ih'.2.1 y hy
      · rw [incLE, if_neg hx]
        simp only [toNatLE, ih'.2.2]
        subst hxeq
        have : B * (toNatLE B xs + 1) = B * toNatLE B xs + B := by ring
        omega

theorem incrementAddr_spec (B w : Nat) (hB : 2 ≤ B) (xs : List Nat)
    (hwf : AddrWf B w xs) (hne : xs ≠ List.replicate w (B - 1)) :
    ∃ ys, incrementAddr B w xs = some ys ∧ AddrWf B w ys ∧
      addrValue B ys = addrValue B xs + 1 := by
  obtain ⟨hlen, hbound⟩ := hwf
  have hbr : ∀ x ∈ xs.reverse, x < B := fun x hx => hbound x (List.mem_reverse.mp hx)
  have hex : ∃ x ∈ xs.reverse, x ≠ B - 1 := by
    by_contra hall
    push_neg at hall
    apply hne
    refine List.eq_replicate_iff.mpr ⟨hlen, fun b hb => hall b (List.mem_reverse.mpr hb)⟩
  have h := incLE_spec B hB xs.reverse hbr hex
  refine ⟨(incLE B xs.reverse).reverse, ?_, ⟨?_, ?_⟩, ?_⟩
  · rw [incrementAddr, if_neg hne]
  · rw [List.length_reverse, h.1, List.length_reverse, hlen]
  · intro x hx
    exact h.2.1 x (List.mem_reverse.mp hx)
  · show toNatLE B (incLE B xs.reverse).reverse.reverse = toNatLE B xs.reverse + 1
    rw [List.reverse_reverse, h.2.2]

theorem incrementAddr_allOnes (B w : Nat) :
    incrementAddr B w (List.replicate w (B - 1)) = none := by
  rw [incrementAddr, if_pos rfl]

theorem toNatLE_lt (B : Nat) (_hB : 1 ≤ B) :
    ∀ xs : List Nat, (∀ x ∈ xs, x < B) → toNatLE B xs < B ^ xs.length := by
  intro xs
  induction xs with
  | nil => intro _; simp [toNatLE]
  | cons x xs ih =>
    intro hbound
    have hx : x < B := hbound x (List.mem_cons_self _ _)
    have h := ih (fun y hy => hbound y (List.mem_cons_of_mem _ hy))
    show x + B * toNatLE B xs < B ^ (xs.length + 1)
    calc x + B * toNatLE B xs < B + B * toNatLE B xs := by omega
    _ = B * (toNatLE B xs + 1) := by ring
    _ ≤ B * B ^ xs.length := Nat.mul_le_mul_left B h
    _ = B ^ (xs.length + 1) := by ring

theorem addrValue_lt (B w : Nat) (hB : 1 ≤ B) (xs : List Nat)
    (hwf : AddrWf B w xs) : addrValue B xs < B ^ w := by
  have := toNatLE_lt B hB xs.reverse
    (fun x hx => hwf.2 x (List.mem_reverse.mp hx))
  rwa [List.length_reverse, hwf.1] at this

theorem toNatLE_inj (B : Nat) :
    ∀ xs ys : List Nat, xs.length = ys.length →
      (∀ x ∈ xs, x < B) → (∀ y ∈ ys, y < B) →
      toNatLE B xs = toNatLE B ys → xs = ys := by
  intro xs
  induction xs with
  | nil =>
    intro ys hlen _ _ _
    exact (List.length_eq_zero.mp hlen.symm).symm
  | cons x xs ih =>
    intro ys hlen hbx hby hval
    cases ys with
    | nil => simp at hlen
    | cons y ys =>
      have hx : x < B := hbx x (List.mem_cons_self _ _)
      have hy : y < B := hby y (List.mem_cons_self _ _)
      have hmod : (x + B * toNatLE B xs) % B = (y + B * toNatLE B ys) % B := by
        rw [show toNatLE B (x :: xs) = x + B * toNatLE B xs from rfl,
            show toNatLE B (y :: ys) = y + B * toNatLE B ys from rfl] at hval
        rw [hval]
      rw [Nat.add_mul_mod_self_left, Nat.add_mul_mod_self_left,
          Nat.mod_eq_of_lt hx, Nat.mod_eq_of_lt hy] at hmod
      subst hmod
      have htail : toNatLE B xs = toNatLE B ys := by
        have : x + B * toNatLE B xs = x + B * toNatLE B ys := hval
        have hB : 0 < B := by omega
        have := Nat.add_left_cancel this
        exact Nat.eq_of_mul_eq_mul_left hB this
      have := ih ys (by simpa using hlen)
        (fun a ha => hbx a (List.mem_cons_of_mem _ ha))
        (fun a ha => hby a (List.mem_cons_of_mem _ ha)) htail
      rw [this]

theorem addrValue_inj (B w : Nat) (xs ys : List Nat)
    (hxs : AddrWf B w xs) (hys : AddrWf B w ys)
    (h : addrValue B xs = addrValue B ys) : xs = ys := by
  have := toNatLE_inj B xs.reverse ys.reverse
    (by rw [List.length_reverse, List.length_reverse, hxs.1, hys.1])
    (fun x hx => hxs.2 x (List.mem_reverse.mp hx))
    (fun y hy => hys.2 y (List.mem_reverse.mp hy)) h
  have := congrArg List.reverse this
  rwa [List.reverse_reverse, List.reverse_reverse] at this

theorem toNatLE_replicate_add_one (B n : Nat) (hB : 1 ≤ B) :
    toNatLE B (List.replicate n (B - 1)) + 1 = B ^ n := by
  induction n with
  | zero => simp [toNatLE]
  | succ n ih =>
    have hrep : List.replicate (n + 1) (B - 1) = (B - 1) :: List.replicate n (B - 1) :=
      List.replicate_succ _ _
    rw [hrep]
    show (B - 1) + B * toNatLE B (List.replicate n (B - 1)) + 1 = B ^ (n + 1)
    have hpow : B ^ (n + 1) = B * B ^ n := by rw [pow_succ]; ring
    have hmul : B * (toNatLE B (List.replicate n (B - 1)) + 1) =
        B * toNatLE B (List.replicate n (B - 1)) + B := by ring
    rw [hpow, ← ih, hmul]
    omega

theorem addrValue_replicate_add_one (B w : Nat) (hB : 1 ≤ B) :
    addrValue B (List.replicate w (B - 1)) + 1 = B ^ w := by
  rw [addrValue, List.reverse_replicate]
  exact toNatLE_replicate_add_one B w hB

/-- An address with a strictly larger well-formed address above it is not the
all-ones address, so the increment succeeds while scanning toward `end_ip`. -/
theorem ne_allOnes_of_lt (B w : Nat) (hB : 2 ≤ B) {ip end_ip : List Nat}
    (hwe : AddrWf B w end_ip) (hlt : addrValue B ip < addrValue B end_ip) :
    ip ≠ List.replicate w (B - 1) := by
  intro hrep
  have hmax := addrValue_replicate_add_one B w (by omega)
  have hend := addrValue_lt B w (by omega) end_ip hwe
  rw [hrep] at hlt
  omega

theorem scan_unused_sound (B w : Nat) (hB : 2 ≤ B) (existing : List (List Nat))
    (end_ip : List Nat) (hwe : AddrWf B w end_ip) :
    ∀ fuel ip, AddrWf B w ip → addrValue B ip ≤ addrValue B end_ip →
      ∀ a, scan_unused B w existing end_ip fuel ip = some a →
        AddrWf B w a ∧ a ∉ existing ∧
        addrValue B ip ≤ addrValue B a ∧ addrValue B a ≤ addrValue B end_ip ∧
        ∀ b, AddrWf B w b → addrValue B ip ≤ addrValue B b →
          addrValue B b < addrValue B a → b ∈ existing := by
  intro fuel
  induction fuel with
  | zero => intro ip _ _ a h; simp [scan_unused] at h
  | succ fuel ih =>
    intro ip hwf hle a h
    rw [scan_unused] at h
    by_cases hmem : ip ∈ existing
    · rw [if_pos hmem] at h
      by_cases hend : ip = end_ip
      · rw [if_pos hend] at h; simp at h
      · rw [if_neg hend] at h
        have hvlt : addrValue B ip < addrValue B end_ip := by
          rcases Nat.lt_or_ge (addrValue B ip) (addrValue B end_ip) with hlt | hge
          · exact hlt
          · have : addrValue B ip = addrValue B end_ip := by omega
            exact absurd (addrValue_inj B w ip end_ip hwf hwe this) hend
        obtain ⟨next, hinc, hwfn, hvn⟩ := incrementAddr_spec B w hB ip hwf
          (ne_allOnes_of_lt B w hB hwe hvlt)
        rw [hinc] at h
        obtain ⟨hwa, hna, hge, hle_e, hmin⟩ := ih next hwfn (by omega) a h
        refine ⟨hwa, hna, by omega, hle_e, ?_⟩
        intro b hwb hgeb hltb
        rcases Nat.lt_or_ge (addrValue B b) (addrValue B next) with hb | hb
        · have hbv : addrValue B b = addrValue B ip := by omega
          rw [addrValue_inj B w b ip hwb hwf hbv]
          exact hmem
        · exact hmin b hwb hb hltb
    · rw [if_neg hmem] at h
      have ha : ip = a := by injection h
      subst ha
      exact ⟨hwf, hmem, Nat.le_refl _, hle, fun b _ hgeb hltb => absurd hltb (by omega)⟩

theorem scan_unused_exhausted (B w : Nat) (hB : 2 ≤ B) (existing : List (List Nat))
    (end_ip : List Nat) (hwe : AddrWf B w end_ip) :
    ∀ fuel ip, AddrWf B w ip → addrValue B ip ≤ addrValue B end_ip →
      addrValue B end_ip < addrValue B ip + fuel →
      (∀ b, AddrWf B w b → addrValue B ip ≤ addrValue B b →
        addrValue B b ≤ addrValue B end_ip → b ∈ existing) →
      scan_unused B w existing end_ip fuel ip = none := by
  intro fuel
  induction fuel with
  | zero => intro ip _ hle hfuel _; omega
  | succ fuel ih =>
    intro ip hwf hle hfuel hall
    have hmem : ip ∈ existing := hall ip hwf (Nat.le_refl _) hle
    rw [scan_unused, if_pos hmem]
    by_cases hend : ip = end_ip
    · rw [if_pos hend]
    · rw [if_neg hend]
      have hvlt : addrValue B ip < addrValue B end_ip := by
        rcases Nat.lt_or_ge (addrValue B ip) (addrValue B end_ip) with hlt | hge
        · exact hlt
        · have : addrValue B ip = addrValue B end_ip := by omega
          exact absurd (addrValue_inj B w ip end_ip hwf hwe this) hend
      obtain ⟨next, hinc, hwfn, hvn⟩ := incrementAddr_spec B w hB ip hwf
        (ne_allOnes_of_lt B w hB hwe hvlt)
      rw [hinc]
      exact ih next hwfn (by omega) (by omega)
        (fun b hwb hgeb hleb => hall b hwb (by omega) hleb)

/-! The claims about the address allocator. -/

/-- **C4**: away from the all-ones address, `increment_ipv4_address` and
`increment_ipv6_address` return the numerically next address (value one
greater, via per-segment carry), and both map the all-ones address to
`none`. -/
theorem increment_address_spec :
    (∀ ip : Ipv4Addr, AddrWf 256 4 ip → ip ≠ List.replicate 4 255 →
      ∃ next, increment_ipv4_address ip = some next ∧ AddrWf 256 4 next ∧
        addrValue 256 next = addrValue 256 ip + 1)
    ∧ increment_ipv4_address (List.replicate 4 255) = none
    ∧ (∀ ip : Ipv6Addr, AddrWf 65536 8 ip → ip ≠ List.replicate 8 65535 →
      ∃ next, increment_ipv6_address ip = some next ∧ AddrWf 65536 8 next ∧
        addrValue 65536 next = addrValue 65536 ip + 1)
    ∧ increment_ipv6_address (List.replicate 8 65535) = none := by
  refine ⟨?_, by decide, ?_, by decide⟩
  · intro ip hwf hne
    exact incrementAddr_spec 256 4 (by norm_num) ip hwf hne
  · intro ip hwf hne
    exact incrementAddr_spec 65536 8 (by norm_num) ip hwf hne

/-- Witness for **C4**: concrete carry propagation for both families. -/
theorem increment_address_spec_witness :
    increment_ipv4_address [10, 0, 0, 255] = some [10, 0, 1, 0]
    ∧ addrValue 256 [10, 0, 1, 0] = addrValue 256 [10, 0, 0, 255] + 1
    ∧ increment_ipv6_address [0, 0, 0, 0, 0, 0, 0, 65535] =
        some [0, 0, 0, 0, 0, 0, 1, 0] := by
  obtain ⟨next, h1, _, h3⟩ :=
    increment_address_spec.1 [10, 0, 0, 255] (by decide) (by decide)
  have hnext : next = [10, 0, 1, 0] := by
    have h := h1.symm.trans (by decide : increment_ipv4_address [10, 0, 0, 255] =
      some [10, 0, 1, 0])
    exact Option.some_inj.mp h
  rw [hnext] at h3
  exact ⟨by decide, h3, by decide⟩

/-- **C3**, counterexample: with `start = 10.0.0.2` and `end = 10.0.0.1`
(an inverted bound pair) and no existing addresses, the scan returns
`10.0.0.2`, which lies outside the range `[start, end]` (that range is
empty), and it does not report exhaustion even though every address of the
empty range is vacuously taken. -/
theorem find_unused_range_counterexample :
    get_unused_wireguard_ipv4_address [] [10, 0, 0, 2] [10, 0, 0, 1] =
      some [10, 0, 0, 2]
    ∧ ¬ addrValue 256 [10, 0, 0, 2] ≤ addrValue 256 [10, 0, 0, 1] := by
  exact ⟨by decide, by decide⟩

/-- **C3** (amended with the precondition `start ≤ end`): for well-formed
bounds with `start ≤ end`, `get_unused_wireguard_ipv4_address` and
`get_unused_wireguard_ipv6_address` return the first address from `start`
upward that is not in `existing` — any result is well-formed, unused, and
inside `[start, end]`, with every smaller address in range already taken —
and return `none` when every address in `[start, end]` is in `existing`. -/
theorem find_unused_spec :
    (∀ (existing : List Ipv4Addr) (start_ip end_ip : Ipv4Addr),
      AddrWf 256 4 start_ip → AddrWf 256 4 end_ip →
      addrValue 256 start_ip ≤ addrValue 256 end_ip →
      (∀ a, get_unused_wireguard_ipv4_address existing start_ip end_ip = some a →
        AddrWf 256 4 a ∧ a ∉ existing ∧
        addrValue 256 start_ip ≤ addrValue 256 a ∧
        addrValue 256 a ≤ addrValue 256 end_ip ∧
        ∀ b, AddrWf 256 4 b → addrValue 256 start_ip ≤ addrValue 256 b →
          addrValue 256 b < addrValue 256 a → b ∈ existing)
      ∧ ((∀ b, AddrWf 256 4 b → addrValue 256 start_ip ≤ addrValue 256 b →
            addrValue 256 b ≤ addrValue 256 end_ip → b ∈ existing) →
          get_unused_wireguard_ipv4_address existing start_ip end_ip = none))
    ∧ (∀ (existing : List Ipv6Addr) (start_ip end_ip : Ipv6Addr),
      AddrWf 65536 8 start_ip → AddrWf 65536 8 end_ip →
      addrValue 65536 start_ip ≤ addrValue 65536 end_ip →
      (∀ a, get_unused_wireguard_ipv6_address existing start_ip end_ip = some a →
        AddrWf 65536 8 a ∧ a ∉ existing ∧
        addrValue 65536 start_ip ≤ addrValue 65536 a ∧
        addrValue 65536 a ≤ addrValue 65536 end_ip ∧
        ∀ b, AddrWf 65536 8 b → addrValue 65536 start_ip ≤ addrValue 65536 b →
          addrValue 65536 b < addrValue 65536 a → b ∈ existing)
      ∧ ((∀ b, AddrWf 65536 8 b → addrValue 65536 start_ip ≤ addrValue 65536 b →
            addrValue 65536 b ≤ addrValue 65536 end_ip → b ∈ existing) →
          get_unused_wireguard_ipv6_address existing start_ip end_ip = none)) := by
  constructor
  · intro existing start_ip end_ip hws hwe hle
    constructor
    · intro a ha
      exact scan_unused_sound 256 4 (by norm_num) existing end_ip hwe
        (2 ^ 32) start_ip hws hle a ha
    · intro hall
      apply scan_unused_exhausted 256 4 (by norm_num) existing end_ip hwe
        (2 ^ 32) start_ip hws hle ?_ hall
      have := addrValue_lt 256 4 (by norm_num) end_ip hwe
      have h : (256 : Nat) ^ 4 = 2 ^ 32 := by norm_num
      omega
  · intro existing start_ip end_ip hws hwe hle
    constructor
    · intro a ha
      exact scan_unused_sound 65536 8 (by norm_num) existing end_ip hwe
        (2 ^ 128) start_ip hws hle a ha
    · intro hall
      apply scan_unused_exhausted 65536 8 (by norm_num) existing end_ip hwe
        (2 ^ 128) start_ip hws hle ?_ hall
      have := addrValue_lt 65536 8 (by norm_num) end_ip hwe
      have h : (65536 : Nat) ^ 8 = 2 ^ 128 := by norm_num
      omega

/-- Witness for **C3**: the specification's two concrete scenarios, with the
guarantees of the amended theorem instantiated at the first scenario. -/
theorem find_unused_spec_witness :
    get_unused_wireguard_ipv4_address [[10, 0, 0, 1]] [10, 0, 0, 1] [10, 0, 0, 2] =
      some [10, 0, 0, 2]
    ∧ [10, 0, 0, 2] ∉ [[10, 0, 0, 1]]
    ∧ addrValue 256 [10, 0, 0, 1] ≤ addrValue 256 [10, 0, 0, 2]
    ∧ addrValue 256 [10, 0, 0, 2] ≤ addrValue 256 [10, 0, 0, 2]
    ∧ get_unused_wireguard_ipv4_address [[10, 0, 0, 1], [10, 0, 0, 2]]
        [10, 0, 0, 1] [10, 0, 0, 2] = none
    ∧ get_unused_wireguard_ipv6_address [] [0, 0, 0, 0, 0, 0, 0, 0]
        [0, 0, 0, 0, 0, 0, 0, 1] = some [0, 0, 0, 0, 0, 0, 0, 0] := by
  have h := (find_unused_spec.1 [[10, 0, 0, 1]] [10, 0, 0, 1] [10, 0, 0, 2]
    (by decide) (by decide) (by decide)).1 [10, 0, 0, 2] (by decide)
  exact ⟨by decide, h.2.1, h.2.2.1, h.2.2.2.1, by decide, by decide⟩

/-! Sorting by key: membership and sortedness. -/

theorem mem_insertByKey {α : Type} (key : α → Int) (x : α) (l : List α) (a : α) :
    a ∈ insertByKey key x l ↔ a = x ∨ a ∈ l := by
  induction l with
  | nil => simp [insertByKey]
  | cons y ys ih =>
    by_cases h : key x ≤ key y
    · simp [insertByKey, h]
    · simp [insertByKey, h, ih]
      tauto

theorem mem_sortByKey {α : Type} (key : α → Int) (l : List α) (a : α) :
    a ∈ sortByKey key l ↔ a ∈ l := by
  induction l with
  | nil => simp [sortByKey]
  | cons x xs ih => simp [sortByKey, mem_insertByKey, ih]

theorem pairwise_insertByKey {α : Type} (key : α → Int) (x : α) (l : List α)
    (h : l.Pairwise (fun p q => key p ≤ key q)) :
    (insertByKey key x l).Pairwise (fun p q => key p ≤ key q) := by
  induction l with
  | nil => simp [insertByKey]
  | cons y ys ih =>
    rcases List.pairwise_cons.mp h with ⟨hy, hys⟩
    by_cases hxy : key x ≤ key y
    · rw [insertByKey, if_pos hxy]
      refine List.pairwise_cons.mpr ⟨?_, h⟩
      intro b hb
      rcases List.mem_cons.mp hb with rfl | hb
      · exact hxy
      · exact le_trans hxy (hy b hb)
    · rw [insertByKey, if_neg hxy]
      refine List.pairwise_cons.mpr ⟨?_, ih hys⟩
      intro b hb
      rcases (mem_insertByKey key x ys b).mp hb with rfl | hb
      · omega
      · exact hy b hb

theorem pairwise_sortByKey {α : Type} (key : α → Int) (l : List α) :
    (sortByKey key l).Pairwise (fun p q => key p ≤ key q) := by
  induction l with
  | nil => simp [sortByKey]
  | cons x xs ih => exact pairwise_insertByKey key x _ ih

/-! The claims about the path resolver and the SSH-config fallback. -/

/-- **C1**: every pair `get_network_to_network` returns is a key of the
priority index; the returned list is sorted ascending by priority; and an
empty source-network list, an empty destination-address list, or an index
admitting no pair each yield the empty list. -/
theorem resolve_admissible_sorted (links : NetworkLinksPriorityMap)
    (source_networks : List String) (addresses : List MachineAddress) :
    (∀ p ∈ get_network_to_network links source_networks addresses, (links p).isSome)
    ∧ (get_network_to_network links source_networks addresses).Pairwise
        (fun p q => (links p).getD 0 ≤ (links q).getD 0)
    ∧ (source_networks = [] → get_network_to_network links source_networks addresses = [])
    ∧ (addresses = [] → get_network_to_network links source_networks addresses = [])
    ∧ ((∀ s ∈ source_networks, ∀ a ∈ addresses, links (s, a.network) = none) →
        get_network_to_network links source_networks addresses = []) := by
  refine ⟨?_, ?_, ?_, ?_, ?_⟩
  · intro p hp
    rw [get_network_to_network] at hp
    have := (mem_sortByKey _ _ p).mp hp
    exact (List.mem_filter.mp this).2
  · exact pairwise_sortByKey _ _
  · intro h; subst h; rfl
  · intro h; subst h
    show sortByKey _
      (List.filter _ (source_networks.flatMap fun _ => ([] : List (String × String)))) = []
    rw [List.flatMap_eq_nil_iff.mpr (fun x _ => rfl)]
    rfl
  · intro h
    rw [get_network_to_network]
    have hfil :
        ((source_networks.flatMap
            (fun s => (addresses.map (fun a => a.network)).map (fun d => (s, d)))).filter
          (fun p => (links p).isSome)) = [] := by
      rw [List.filter_eq_nil_iff]
      intro p hp
      rcases List.mem_flatMap.mp hp with ⟨s, hs, hmap⟩
      rcases List.mem_map.mp hmap with ⟨d, hd, rfl⟩
      rcases List.mem_map.mp hd with ⟨a, ha, rfl⟩
      rw [h s hs a ha]
      simp
    rw [hfil]
    rfl

/-- Witness for **C1** at concrete inputs: the scenario index admits exactly
the pair `("public", "vpn")`, and each emptiness clause fires. -/
theorem resolve_admissible_sorted_witness :
    (∀ p ∈ get_network_to_network scenarioLinks ["public"] machineB.addresses,
      (scenarioLinks p).isSome)
    ∧ get_network_to_network scenarioLinks [] machineB.addresses = []
    ∧ get_network_to_network scenarioLinks ["public"] [] = []
    ∧ get_network_to_network (fun _ => none) ["public"] machineB.addresses = [] := by
  have h1 := resolve_admissible_sorted scenarioLinks ["public"] machineB.addresses
  have h2 := resolve_admissible_sorted scenarioLinks [] machineB.addresses
  have h3 := resolve_admissible_sorted scenarioLinks ["public"] []
  have h4 := resolve_admissible_sorted (fun _ => none) ["public"] machineB.addresses
  exact ⟨h1.1, h2.2.2.1 rfl, h3.2.2.2.1 rfl, h4.2.2.2.2 (fun s _ a _ => rfl)⟩

/-- **C10**: every pair the resolver returns has its source network in the
given source list and its destination network on some address of the
destination list, so the address lookup the callers perform afterwards (the
`unwrap` in `print_ssh_config`) always succeeds. -/
theorem resolver_pairs_sound (links : NetworkLinksPriorityMap)
    (source_networks : List String) (machine : Machine) :
    (∀ p ∈ get_network_to_network links source_networks machine.addresses,
      p.1 ∈ source_networks ∧ ∃ a ∈ machine.addresses, a.network = p.2)
    ∧ (print_ssh_config_entry links source_networks machine).isSome := by
  have hpairs : ∀ p ∈ get_network_to_network links source_networks machine.addresses,
      p.1 ∈ source_networks ∧ ∃ a ∈ machine.addresses, a.network = p.2 := by
    intro p hp
    rw [get_network_to_network] at hp
    have := (List.mem_filter.mp ((mem_sortByKey _ _ p).mp hp)).1
    rcases List.mem_flatMap.mp this with ⟨s, hs, hmap⟩
    rcases List.mem_map.mp hmap with ⟨d, hd, rfl⟩
    rcases List.mem_map.mp hd with ⟨a, ha, rfl⟩
    exact ⟨hs, a, ha, rfl⟩
  refine ⟨hpairs, ?_⟩
  rw [print_ssh_config_entry]
  cases hh : (get_network_to_network links source_networks machine.addresses).head? with
  | none => simp
  | some pr =>
    obtain ⟨s, d⟩ := pr
    have hmem : (s, d) ∈ get_network_to_network links source_networks machine.addresses :=
      List.mem_of_mem_head? (by rw [hh]; exact rfl)
    obtain ⟨-, a, ha, hnet⟩ := hpairs (s, d) hmem
    cases hfind : machine.addresses.find? (fun x => x.network == d) with
    | none =>
      rw [List.find?_eq_none] at hfind
      exact absurd (by simpa using hnet) (hfind a ha)
    | some b => simp [hfind]

/-- Witness for **C10** at the scenario input. -/
theorem resolver_pairs_sound_witness :
    ("public" ∈ ["public"] ∧ ∃ a ∈ machineB.addresses, a.network = "vpn")
    ∧ (print_ssh_config_entry scenarioLinks ["public"] machineB).isSome := by
  have h := resolver_pairs_sound scenarioLinks ["public"] machineB
  exact ⟨h.1 ("public", "vpn") (by decide), h.2⟩

/-- **C8**: when the resolver yields no pair, the SSH target for a candidate
falls back to the candidate's own WireGuard IPv4 address together with the
candidate's machine-level SSH port. -/
theorem ssh_fallback_wireguard (links : NetworkLinksPriorityMap)
    (source_networks : List String) (machine : Machine)
    (h : get_network_to_network links source_networks machine.addresses = []) :
    print_ssh_config_entry links source_networks machine =
      some (machine.wireguard_ipv4_address.map IpAddr.v4, machine.ssh_port) := by
  rw [print_ssh_config_entry, h]
  rfl

/-- Witness for **C8**: with an empty link table, B's SSH target is its
WireGuard IPv4 address and its machine-level SSH port 22 (not the per-address
port 2222). -/
theorem ssh_fallback_wireguard_witness :
    get_network_to_network (fun _ => none) machineA.networks machineB.addresses = []
    ∧ print_ssh_config_entry (fun _ => none) machineA.networks machineB =
        some (machineB.wireguard_ipv4_address.map IpAddr.v4, machineB.ssh_port)
    ∧ machineB.ssh_port = some 22 ∧ addrB_vpn.ssh_port = some 2222 := by
  refine ⟨by decide, ?_, by decide, by decide⟩
  exact ssh_fallback_wireguard (fun _ => none) machineA.networks machineB (by decide)

/-! The claims about the peer-set builder. -/

/-- Characterisation of the machine loop of `get_wireguard_peers`: every
emitted peer comes from a non-self machine of the list and records its
WireGuard fields, endpoint and keepalive; conversely every non-self machine
with complete WireGuard data yields a peer. -/
theorem get_wireguard_peers_loop_spec (links : NetworkLinksPriorityMap)
    (keepalives_map : WireguardKeepaliveIntervalMap) (for_machine : String)
    (source_networks : List String) :
    ∀ (machines : List Machine) (peers : List WireguardPeer),
      get_wireguard_peers_loop links keepalives_map for_machine source_networks
        machines = .ok peers →
      (∀ p ∈ peers, ∃ m ∈ machines, m.hostname = p.hostname ∧
        m.hostname ≠ for_machine ∧
        m.wireguard_ipv4_address = some p.wireguard_ipv4_address ∧
        m.wireguard_ipv6_address = some p.wireguard_ipv6_address ∧
        m.wireguard_pubkey = some p.wireguard_pubkey ∧
        peer_endpoint links source_networks m = .ok p.endpoint ∧
        p.keepalive = keepalives_map (for_machine, m.hostname))
      ∧ (∀ m ∈ machines, m.hostname ≠ for_machine →
          m.wireguard_ipv4_address.isSome → m.wireguard_ipv6_address.isSome →
          m.wireguard_pubkey.isSome → ∃ p ∈ peers, p.hostname = m.hostname) := by
  intro machines
  induction machines with
  | nil =>
    intro peers h
    have hp : peers = [] := by
      rw [get_wireguard_peers_loop] at h
      exact (Except.ok.inj h).symm
    subst hp
    exact ⟨by simp, by simp⟩
  | cons machine rest ih =>
    intro peers h
    rw [get_wireguard_peers_loop] at h
    by_cases hself : machine.hostname = for_machine
    · rw [if_pos hself] at h
      obtain ⟨h1, h2⟩ := ih peers h
      refine ⟨?_, ?_⟩
      · intro p hp
        obtain ⟨m, hm, hrest⟩ := h1 p hp
        exact ⟨m, List.mem_cons_of_mem _ hm, hrest⟩
      · intro m hm hne hv4 hv6 hpk
        rcases List.mem_cons.mp hm with rfl | hm
        · exact absurd hself hne
        · exact h2 m hm hne hv4 hv6 hpk
    · rw [if_neg hself] at h
      cases hep : peer_endpoint links source_networks machine with
      | error e => rw [hep] at h; exact absurd h (by simp)
      | ok endpoint =>
        rw [hep] at h
        cases hrest : get_wireguard_peers_loop links keepalives_map for_machine
            source_networks rest with
        | error e => rw [hrest] at h; exact absurd h (by simp)
        | ok peers_rest =>
          rw [hrest] at h
          obtain ⟨h1, h2⟩ := ih peers_rest hrest
          cases hv4m : machine.wireguard_ipv4_address with
          | none =>
            rw [hv4m] at h
            have hpe : peers = peers_rest := (Except.ok.inj h).symm
            subst hpe
            refine ⟨?_, ?_⟩
            · intro p hp
              obtain ⟨m, hm, hm_rest⟩ := h1 p hp
              exact ⟨m, List.mem_cons_of_mem _ hm, hm_rest⟩
            · intro m hm hne hv4 hv6 hpk
              rcases List.mem_cons.mp hm with rfl | hm
              · rw [hv4m] at hv4; exact absurd hv4 (by simp)
              · exact h2 m hm hne hv4 hv6 hpk
          | some v4 =>
            rw [hv4m] at h
            cases hv6m : machine.wireguard_ipv6_address with
            | none =>
              rw [hv6m] at h
              have hpe : peers = peers_rest := (Except.ok.inj h).symm
              subst hpe
              refine ⟨?_, ?_⟩
              · intro p hp
                obtain ⟨m, hm, hm_rest⟩ := h1 p hp
                exact ⟨m, List.mem_cons_of_mem _ hm, hm_rest⟩
              · intro m hm hne hv4 hv6 hpk
                rcases List.mem_cons.mp hm with rfl | hm
                · rw [hv6m] at hv6; exact absurd hv6 (by simp)
                · exact h2 m hm hne hv4 hv6 hpk
            | some v6 =>
              rw [hv6m] at h
              cases hpkm : machine.wireguard_pubkey with
              | none =>
                rw [hpkm] at h
                have hpe : peers = peers_rest := (Except.ok.inj h).symm
                subst hpe
                refine ⟨?_, ?_⟩
                · intro p hp
                  obtain ⟨m, hm, hm_rest⟩ := h1 p hp
                  exact ⟨m, List.mem_cons_of_mem _ hm, hm_rest⟩
                · intro m hm hne hv4 hv6 hpk
                  rcases List.mem_cons.mp hm with rfl | hm
                  · rw [hpkm] at hpk; exact absurd hpk (by simp)
                  · exact h2 m hm hne hv4 hv6 hpk
              | some pk =>
                rw [hpkm] at h
                have hpe : peers =
                    { hostname := machine.hostname, wireguard_pubkey := pk,
                      wireguard_ipv4_address := v4, wireguard_ipv6_address := v6,
                      endpoint := endpoint,
                      keepalive := keepalives_map (for_machine, machine.hostname) }
                      :: peers_rest :=
                  (Except.ok.inj h).symm
                subst hpe
                refine ⟨?_, ?_⟩
                · intro p hp
                  rcases List.mem_cons.mp hp with rfl | hp
                  · exact ⟨machine, List.mem_cons_self _ _, rfl, hself,
                      hv4m, hv6m, hpkm, hep, rfl⟩
                  · obtain ⟨m, hm, hm_rest⟩ := h1 p hp
                    exact ⟨m, List.mem_cons_of_mem _ hm, hm_rest⟩
                · intro m hm hne hv4 hv6 hpk
                  rcases List.mem_cons.mp hm with rfl | hm
                  · exact ⟨_, List.mem_cons_self _ _, rfl⟩
                  · obtain ⟨p, hp, hpn⟩ := h2 m hm hne hv4 hv6 hpk
                    exact ⟨p, List.mem_cons_of_mem _ hp, hpn⟩

/-- **C5**: with distinct hostnames, the peer list contains a peer for a
candidate machine exactly when the candidate is not the requesting machine
and has WireGuard addresses (IPv4 and IPv6) and a WireGuard public key; in
particular a machine without a public key is excluded even if it has a
WireGuard address. -/
theorem wireguard_peers_membership (machines : List Machine)
    (links : NetworkLinksPriorityMap) (keepalives_map : WireguardKeepaliveIntervalMap)
    (for_machine : String) (peers : List WireguardPeer)
    (hnodup : (machines.map Machine.hostname).Nodup)
    (hok : get_wireguard_peers machines links keepalives_map for_machine = .ok peers)
    (m : Machine) (hm : m ∈ machines) :
    (∃ p ∈ peers, p.hostname = m.hostname) ↔
      (m.hostname ≠ for_machine ∧ m.wireguard_ipv4_address.isSome ∧
       m.wireguard_ipv6_address.isSome ∧ m.wireguard_pubkey.isSome) := by
  rw [get_wireguard_peers] at hok
  cases hfind : machines.find? (fun mm => mm.hostname == for_machine) with
  | none => rw [hfind] at hok; exact absurd hok (by simp)
  | some source_machine =>
    rw [hfind] at hok
    obtain ⟨h1, h2⟩ := get_wireguard_peers_loop_spec links keepalives_map for_machine
      source_machine.networks machines peers hok
    constructor
    · rintro ⟨p, hp, hpname⟩
      obtain ⟨m2, hm2, hname2, hne2, hv42, hv62, hpk2, -, -⟩ := h1 p hp
      have hmm : m2 = m :=
        List.inj_on_of_nodup_map hnodup hm2 hm (by rw [hname2, hpname])
      subst hmm
      exact ⟨hne2, by rw [hv42]; rfl, by rw [hv62]; rfl, by rw [hpk2]; rfl⟩
    · rintro ⟨hne, hv4, hv6, hpk⟩
      exact h2 m hm hne hv4 hv6 hpk

/-- Witness for **C5**: in the scenario, rendering A's config yields exactly
the peer for B, and the characterisation applies to B. -/
theorem wireguard_peers_membership_witness :
    (∃ p ∈ [peerB], p.hostname = machineB.hostname) ↔
      (machineB.hostname ≠ "A" ∧ machineB.wireguard_ipv4_address.isSome ∧
       machineB.wireguard_ipv6_address.isSome ∧ machineB.wireguard_pubkey.isSome) :=
  wireguard_peers_membership [machineA, machineB] scenarioLinks (fun _ => none)
    "A" [peerB] (by decide) (by rfl) machineB (by decide)

/-- **C6**: a peer's endpoint follows the path resolver — no admissible pair
leaves it unset; otherwise it is the candidate's address on the top pair's
destination network, with that address's WireGuard port when recorded (the
peer is still present either way), and unset when that address has no
WireGuard port. -/
theorem wireguard_peer_endpoint_selection (machines : List Machine)
    (links : NetworkLinksPriorityMap) (keepalives_map : WireguardKeepaliveIntervalMap)
    (for_machine : String) (peers : List WireguardPeer) (source_machine : Machine)
    (hsrc : machines.find? (fun mm => mm.hostname == for_machine) = some source_machine)
    (hok : get_wireguard_peers machines links keepalives_map for_machine = .ok peers)
    (hnodup : (machines.map Machine.hostname).Nodup)
    (m : Machine) (hm : m ∈ machines) (p : WireguardPeer) (hp : p ∈ peers)
    (hname : p.hostname = m.hostname) :
    (get_network_to_network links source_machine.networks m.addresses = [] →
      p.endpoint = none)
    ∧ ∀ s d,
        (get_network_to_network links source_machine.networks m.addresses).head? =
          some (s, d) →
        ∀ a, m.addresses.find? (fun x => x.network == d) = some a →
          (a.wireguard_port = none → p.endpoint = none)
          ∧ ∀ port, a.wireguard_port = some port →
              p.endpoint = some (a.address, port.toNat) := by
  rw [get_wireguard_peers, hsrc] at hok
  obtain ⟨h1, -⟩ := get_wireguard_peers_loop_spec links keepalives_map for_machine
    source_machine.networks machines peers hok
  obtain ⟨m2, hm2, hname2, -, -, -, -, hep, -⟩ := h1 p hp
  have hmm : m2 = m :=
    List.inj_on_of_nodup_map hnodup hm2 hm (by rw [hname2, hname])
  subst hmm
  constructor
  · intro hempty
    rw [peer_endpoint, hempty] at hep
    simp at hep
    exact hep.symm
  · intro s d hhead a hfind
    rw [peer_endpoint, hhead] at hep
    simp only [hfind] at hep
    constructor
    · intro hport
      rw [hport] at hep
      simp at hep
      exact hep.symm
    · intro port hport
      simp only [hport] at hep
      by_cases hr : 0 ≤ port ∧ port < 65536
      · rw [if_pos hr] at hep
        exact (Except.ok.inj hep).symm
      · rw [if_neg hr] at hep
        exact absurd hep (by simp)

/-- Witness for **C6**: in the scenario the resolver for A→B returns exactly
`[("public", "vpn")]` and B's peer endpoint is B's `vpn` address with
WireGuard port 51820. -/
theorem wireguard_peer_endpoint_selection_witness :
    get_network_to_network scenarioLinks machineA.networks machineB.addresses =
      [("public", "vpn")]
    ∧ peerB.endpoint = some (addrB_vpn.address, 51820) := by
  have h := wireguard_peer_endpoint_selection [machineA, machineB] scenarioLinks
    (fun _ => none) "A" [peerB] machineA rfl rfl (by decide)
    machineB (by decide) peerB (by decide) rfl
  exact ⟨by decide, (h.2 "public" "vpn" rfl addrB_vpn rfl).2 51820 rfl⟩

/-- **C7** (evaluation of the code at the failing input): sorting a peer list
whose hostnames are `"1a"` and `"aa"` calls the natural comparator on a
numeric segment and a string segment, which has no defined order, and the
`unwrap` in `sort_wireguard_peers` panics — there is no lexicographic
fallback. -/
theorem sort_wireguard_peers_panics :
    naturalCmp "1a" "aa" = none
    ∧ sort_wireguard_peers [peer1A, peerAA] = none := by
  exact ⟨by decide, by decide⟩

/-- **C9** (evaluation of the code at the failing input): a machine with
WireGuard IPv4 and IPv6 addresses but no stored WireGuard port passes both
`ensure!` validations, and the render then panics on
`my_machine.wireguard_port.unwrap()` instead of failing with a
`MachineHasNoWireguard` error result. -/
theorem wg_quick_missing_port_panics :
    machinePortless.wireguard_ipv4_address.isSome
    ∧ machinePortless.wireguard_ipv6_address.isSome
    ∧ machinePortless.wireguard_port = none
    ∧ print_wg_quick [machinePortless] (fun _ => none) (fun _ => none) "C" =
        .panicked := by
  exact ⟨by decide, by decide, by decide, by decide⟩

example : increment_ipv4_address [0, 0, 1, 255] = some [0, 0, 2, 0] := by decide
example : increment_ipv4_address [3, 255, 255, 255] = some [4, 0, 0, 0] := by decide
example : increment_ipv4_address [255, 255, 255, 255] = none := by decide
example : increment_ipv6_address [0, 0, 0, 0, 0, 2, 65535, 65535] =
    some [0, 0, 0, 0, 0, 3, 0, 0] := by decide
example :
    get_unused_wireguard_ipv4_address [[10, 0, 0, 1]] [10, 0, 0, 1] [10, 0, 0, 2] =
      some [10, 0, 0, 2] := by decide
example :
    get_unused_wireguard_ipv4_address [[10, 0, 0, 1], [10, 0, 0, 2]]
      [10, 0, 0, 1] [10, 0, 0, 2] = none := by decide
example :
    get_unused_wireguard_ipv4_address [] [10, 0, 0, 2] [10, 0, 0, 1] =
      some [10, 0, 0, 2] := by decide

example :
    get_network_to_network scenarioLinks ["public"] machineB.addresses =
      [("public", "vpn")] := by decide
example :
    get_wireguard_peers [machineA, machineB] scenarioLinks (fun _ => none) "A" =
      .ok [peerB] := by rfl
example : naturalCmp "1a" "aa" = none := by decide
example : naturalCmp "host2" "host10" = some .lt := by decide
example : sort_wireguard_peers [peer1A, peerAA] = none := by decide
example :
    print_wg_quick [machinePortless] (fun _ => none) (fun _ => none) "C" =
      .panicked := by decide
example :
    print_ssh_config_entry (fun _ => none) machineA.networks machineB =
      some (some (IpAddr.v4 [192, 168, 1, 2]), some 22) := by decide

end Infrabase
